import Mathlib

/-!
Verification of `ben42code/myitertools`: the lazy extended-slicing operator
`islice_extended` (src/ben42code/myitertools/islice_extended.py).

The Python function is a generator.  We embed it as an explicit state
machine: constructing the generator builds an inert machine (`mkMachine`,
state `.start`; a Python generator call executes none of the body), and each
`next()` call is one application of `advance1`.  The source iterator is
modelled by the list of its not-yet-consumed elements, carried inside the
machine; one "pull" is one `__next__` attempt on the source, the attempt
that raises `StopIteration` (the exhaustion probe) included — this is the
count the repository's tests observe through a mock's `call_count`.

Python's materialized slice `list(S)[start:stop:step]` (the reference
semantics, and the operation the code itself applies to its buffers via
`newDataSource[rawSlice]`) is embedded as `listSlice`, following CPython's
`PySlice_AdjustIndices` normalization.
-/

namespace Myitertools

/-- The raw slice parameters of one `islice_extended(iterable, *args)` call:
`slice(*args)` leaves each of start/stop/step independently optional. -/
structure Args where
  rawStart : Option Int
  rawStop : Option Int
  rawStep : Option Int
  deriving DecidableEq, Repr

/-- `step: int = 1 if rawSlice.step is None else int(rawSlice.step)`. -/
def sanStep (a : Args) : Int :=
  a.rawStep.getD 1

/-- `start: int = (0 if step > 0 else -1) if rawSlice.start is None else rawSlice.start`. -/
def sanStart (a : Args) : Int :=
  a.rawStart.getD (if sanStep a > 0 then 0 else -1)

/-- `sanitizedSlice.stop is not None and sanitizedSlice.stop < 0`. -/
def hasNegStop (a : Args) : Bool :=
  match a.rawStop with
  | some t => t < 0
  | none => false

/-- CPython slice-start normalization against a length-`n` sequence
(`PySlice_Unpack` + `PySlice_AdjustIndices`): `None` becomes `0` (positive
step) or `n - 1` (negative step); negative values are end-relative and clamp
at `0` (resp. `-1`); overlarge values clamp at `n` (resp. `n - 1`). -/
def pyNormStart (n : Int) (start? : Option Int) (step : Int) : Int :=
  match start? with
  | none => if step > 0 then 0 else n - 1
  | some s =>
    if s < 0 then (if s + n < 0 then (if step > 0 then 0 else -1) else s + n)
    else (if s ≥ n then (if step > 0 then n else n - 1) else s)

/-- CPython slice-stop normalization against a length-`n` sequence:
`None` becomes `n` (positive step) or the sentinel `-1` (negative step);
negative values are end-relative with the same clamps as the start. -/
def pyNormStop (n : Int) (stop? : Option Int) (step : Int) : Int :=
  match stop? with
  | none => if step > 0 then n else -1
  | some t =>
    if t < 0 then (if t + n < 0 then (if step > 0 then 0 else -1) else t + n)
    else (if t ≥ n then (if step > 0 then n else n - 1) else t)

/-- The (source-order) positions a slice selects from a length-`n` sequence:
for a positive step the `i` with `start ≤ i < stop`, `i ≡ start (mod step)`;
for a negative step the `i` with `stop < i ≤ start`, `i ≡ start (mod |step|)`,
listed in reverse (the slice walks downward). -/
def sliceIdx (n : Nat) (a : Args) : List Nat :=
  let step := sanStep a
  let start := pyNormStart n a.rawStart step
  let stop := pyNormStop n a.rawStop step
  if step > 0 then
    (List.range n).filter
      (fun (i : Nat) => decide (start ≤ (i : Int)) && decide ((i : Int) < stop) &&
        decide (((i : Int) - start) % step = 0))
  else
    ((List.range n).filter
      (fun (i : Nat) => decide (stop < (i : Int)) && decide ((i : Int) ≤ start) &&
        decide ((start - (i : Int)) % (-step) = 0))).reverse

/-- Python's materialized slice `src[start:stop:step]` on a list. -/
def listSlice (src : List α) (a : Args) : List α :=
  (sliceIdx src.length a).filterMap src.get?

/-- Arity-3 argument pack `(start, stop, step)`, every field present. -/
def args3 (s t k : Int) : Args :=
  ⟨some s, some t, some k⟩

-- Sanity checks of `listSlice` against Python ground truth (the repository's
-- equivalence tests assert exactly these `list(S)[start:stop:step]` values).
example : listSlice (List.range 10) (args3 0 5 1) = [0, 1, 2, 3, 4] := by decide
example : listSlice (List.range 10) (args3 5 0 (-1)) = [5, 4, 3, 2, 1] := by decide
example : listSlice (List.range 10) (args3 (-10) (-5) 1) = [0, 1, 2, 3, 4] := by decide
example : listSlice (List.range 10) ⟨none, none, some (-1)⟩ = [9, 8, 7, 6, 5, 4, 3, 2, 1, 0] := by decide
example : listSlice (List.range 10) ⟨some 15, none, some (-1)⟩ = [9, 8, 7, 6, 5, 4, 3, 2, 1, 0] := by decide
example : listSlice (List.range 10) (args3 1 (-10) 1) = [] := by decide
example : listSlice (List.range 10) (args3 (-1) 10 1) = [9] := by decide
example : listSlice (List.range 10) (args3 (-4) (-6) 1) = [] := by decide
example : listSlice (List.range 10) (args3 (-6) (-4) (-1)) = [] := by decide
example : listSlice (List.range 10) (args3 3 1 (-1)) = [3, 2] := by decide
example : listSlice (List.range 10) ⟨some 3, none, some (-1)⟩ = [3, 2, 1, 0] := by decide
example : listSlice (List.range 10) ⟨some 6, none, some (-2)⟩ = [6, 4, 2, 0] := by decide
example : listSlice (List.range 10) (args3 4 6 (-1)) = [] := by decide
example : listSlice [0, 1, 2] (args3 5 1 (-1)) = [2] := by decide
example : listSlice [0, 1, 2] ⟨some 5, none, some (-1)⟩ = [2, 1, 0] := by decide
example : listSlice (List.range 10) ⟨none, some 4, none⟩ = [0, 1, 2, 3] := by decide
example : listSlice ([] : List Nat) (args3 0 5 1) = [] := by decide

/-- The suspended `itertools.islice` object of the forward strategy
(CPython `itertoolsmodule.c`, `islice_next`): `nxt` is the next source index
to hand out, `cnt` the number of source elements consumed so far, `stopN`
the exclusive bound (`none`: unbounded), `stepN` the stride. -/
structure FwdState where
  nxt : Nat
  cnt : Nat
  stopN : Option Nat
  stepN : Nat
  deriving DecidableEq, Repr

/-- The suspension point of the `islice_extended` generator: not yet started
(`start`), streaming out of the deque of a buffering strategy (`buffered`),
suspended inside `yield from itertools.islice(...)` (`fwd`), or finished /
failed (`done` — a Python generator that returned or raised is closed for
good). -/
inductive MState (α : Type u) where
  | start (a : Args)
  | buffered (buf : List α)
  | fwd (f : FwdState)
  | done
  deriving DecidableEq, Repr

/-- One `islice_extended` generator together with the source it owns:
`src` is the list of source elements not yet consumed. -/
structure Machine (α : Type u) where
  state : MState α
  src : List α
  deriving DecidableEq, Repr

/-- `islice_extended(iterable, *args)`: calling a generator function runs
none of its body and touches nothing — it just packages the arguments. -/
def mkMachine (src : List α) (a : Args) : Machine α :=
  ⟨.start a, src⟩

/-- What one `next()` call on the generator signals: an element, a
`StopIteration`, or the zero-step `ValueError`. -/
inductive OutSig (α : Type u) where
  | yld (x : α)
  | halt
  | err
  deriving DecidableEq, Repr

/-- Enter the deque-streaming loop `while len(newDataSource) > 0: yield
newDataSource.popleft()` with buffer `buf`, remaining source `src` and `p`
pulls already performed by the buffering phase of this first advance. -/
def emitBuf (buf : List α) (src : List α) (p : Nat) : OutSig α × Machine α × Nat :=
  match buf with
  | [] => (.halt, ⟨.done, src⟩, p)
  | x :: rest => (.yld x, ⟨.buffered rest, src⟩, p)

/-- One `next()` on the suspended `itertools.islice` object (CPython
`islice_next`): pull-and-discard until `cnt` reaches `nxt` (exhaustion there
costs one failing probe); then stop if `cnt` reached the bound; else pull one
element, emit it, and advance `nxt` by the stride, clamped at the bound. -/
def stepFwd (f : FwdState) (src : List α) : OutSig α × Machine α × Nat :=
  let skip := f.nxt - f.cnt
  if src.length < skip then
    (.halt, ⟨.done, []⟩, src.length + 1)
  else
    let c1 := f.cnt + skip
    if (match f.stopN with | some t => decide (t ≤ c1) | none => false) then
      (.halt, ⟨.done, src.drop skip⟩, skip)
    else
      match src.drop skip with
      | [] => (.halt, ⟨.done, []⟩, skip + 1)
      | x :: rest =>
        let raw := f.nxt + f.stepN
        let nxt' := match f.stopN with | some t => min raw t | none => raw
        (.yld x, ⟨.fwd ⟨nxt', c1 + 1, f.stopN, f.stepN⟩, rest⟩, skip + 1)

/-- One `next()` on the generator.  On the first advance the body runs up to
the first suspension: the zero-step `ValueError`, or strategy selection —
full drain (`list(iterable)`) when the sanitized start or stop is negative,
a `start + 1`-element prefix drain (`list(itertools.islice(iterable,
start + 1))`) for a negative step, else delegation to `itertools.islice`.
The buffering strategies apply `newDataSource[rawSlice]` (Python list
slicing, `listSlice`) and stream out of the deque.  Returns the signal, the
new machine, and the number of source pulls this call performed. -/
def advance1 (m : Machine α) : OutSig α × Machine α × Nat :=
  match m.state with
  | .start a =>
    let step := sanStep a
    if step = 0 then
      (.err, ⟨.done, m.src⟩, 0)
    else if sanStart a < 0 ∨ hasNegStop a then
      emitBuf (listSlice m.src a) [] (m.src.length + 1)
    else if step < 0 then
      let k := (sanStart a + 1).toNat
      emitBuf (listSlice (m.src.take k) a) (m.src.drop k)
        (if m.src.length < k then m.src.length + 1 else k)
    else
      stepFwd ⟨(sanStart a).toNat, 0, a.rawStop.map Int.toNat, step.toNat⟩ m.src
  | .buffered buf => emitBuf buf m.src 0
  | .fwd f => stepFwd f m.src
  | .done => (.halt, ⟨.done, m.src⟩, 0)

/-- `k` successive `next()` calls: the machine they leave behind and the
total number of source pulls they perform. -/
def advanceN : Nat → Machine α → Machine α × Nat
  | 0, m => (m, 0)
  | k + 1, m =>
    let s := advance1 m
    let r := advanceN k s.2.1
    (r.1, s.2.2 + r.2)

/-- Consume the generator for at most `fuel` advances, stopping at the first
`StopIteration` or error: the yielded elements, the total pulls (the final
halting advance included — `list(...)` performs it), and the machine left
behind. -/
def runFrom : Nat → Machine α → List α × Nat × Machine α
  | 0, m => ([], 0, m)
  | fuel + 1, m =>
    match advance1 m with
    | (.yld x, m', p) =>
      let r := runFrom fuel m'
      (x :: r.1, p + r.2.1, r.2.2)
    | (.halt, m', p) => ([], p, m')
    | (.err, m', p) => ([], p, m')

-- Sanity checks against the repository's pull-count tests
-- (`test_withStartStopStep_iterateAsExpectedOn{First,Full}Consumption`):
-- first-advance pulls, full-consumption yields and pulls, on `range(10)`.
example : (advance1 (mkMachine (List.range 10) (args3 4 7 1))).2.2 = 5 := by decide
example : (runFrom 12 (mkMachine (List.range 10) (args3 4 7 1))).1 = [4, 5, 6] := by decide
example : (runFrom 12 (mkMachine (List.range 10) (args3 4 7 1))).2.1 = 7 := by decide
example : (advance1 (mkMachine (List.range 10) (args3 4 7 2))).2.2 = 5 := by decide
example : (runFrom 12 (mkMachine (List.range 10) (args3 4 7 2))).2.1 = 7 := by decide
example : (advance1 (mkMachine (List.range 10) (args3 4 4 5))).2.2 = 4 := by decide
example : (runFrom 12 (mkMachine (List.range 10) (args3 4 4 5))).2.1 = 4 := by decide
example : (advance1 (mkMachine (List.range 10) (args3 9 10 1))).2.2 = 10 := by decide
example : (runFrom 12 (mkMachine (List.range 10) (args3 9 10 1))).2.1 = 10 := by decide
example : (advance1 (mkMachine (List.range 10) (args3 (-1) 10 1))).2.2 = 11 := by decide
example : (runFrom 12 (mkMachine (List.range 10) (args3 (-1) 10 1))).1 = [9] := by decide
example : (runFrom 12 (mkMachine (List.range 10) (args3 1 (-10) 1))).2.1 = 11 := by decide
example : (advance1 (mkMachine (List.range 10) (args3 3 1 (-1)))).2.2 = 4 := by decide
example : (runFrom 12 (mkMachine (List.range 10) (args3 3 1 (-1)))).1 = [3, 2] := by decide
example : (runFrom 12 (mkMachine (List.range 10) (args3 3 1 (-1)))).2.1 = 4 := by decide
example : (runFrom 12 (mkMachine (List.range 10) ⟨some 3, none, some (-1)⟩)).2.1 = 4 := by decide
example : (advance1 (mkMachine (List.range 10) (args3 4 6 (-1)))).2.2 = 5 := by decide
example : (runFrom 12 (mkMachine (List.range 10) (args3 4 6 (-1)))).1 = [] := by decide
example : (runFrom 12 (mkMachine (List.range 10) (args3 6 4 1))).1 = [] := by decide
example : (runFrom 12 (mkMachine (List.range 10) (args3 6 4 1))).2.1 = 6 := by decide
example : (runFrom 12 (mkMachine (List.range 10) (args3 (-4) (-6) 1))).2.1 = 11 := by decide
example : (runFrom 12 (mkMachine (List.range 10) (args3 (-6) (-4) (-1)))).2.1 = 11 := by decide
example : (runFrom 12 (mkMachine (List.range 10) ⟨none, none, some (-1)⟩)).1 = [9, 8, 7, 6, 5, 4, 3, 2, 1, 0] := by decide
example : (advance1 (mkMachine (List.range 10) (args3 0 3 0))).1 = OutSig.err := by decide
example : (runFrom 12 (mkMachine ([] : List Nat) (args3 0 5 1))).2.1 = 1 := by decide
example : (runFrom 12 (mkMachine (List.range 10) ⟨some 0, none, some 7⟩)).1 = [0, 7] := by decide
example : (runFrom 12 (mkMachine (List.range 10) ⟨some 0, none, some 7⟩)).2.1 = 11 := by decide

/-- The elements the generator itself stores (the deque of a buffering
strategy); the streaming strategy and the terminal state store nothing. -/
def bufOf : MState α → List α
  | .buffered b => b
  | _ => []

/-- States from which no advance will ever pull the source again: the
deque-streaming loop and the terminal state. -/
def quiet : MState α → Prop
  | .buffered _ => True
  | .done => True
  | _ => False

theorem emitBuf_pulls (b src : List α) (p : Nat) : (emitBuf b src p).2.2 = p := by
  cases b <;> rfl

theorem emitBuf_src (b src : List α) (p : Nat) : (emitBuf b src p).2.1.src = src := by
  cases b <;> rfl

theorem emitBuf_quiet (b src : List α) (p : Nat) : quiet (emitBuf b src p).2.1.state := by
  cases b <;> trivial

theorem quiet_advance1 {m : Machine α} (h : quiet m.state) :
    (advance1 m).2.2 = 0 ∧ (advance1 m).2.1.src = m.src ∧ quiet (advance1 m).2.1.state := by
  obtain ⟨st, src⟩ := m
  cases st with
  | buffered b => exact ⟨emitBuf_pulls b src 0, emitBuf_src b src 0, emitBuf_quiet b src 0⟩
  | done => exact ⟨rfl, rfl, trivial⟩
  | start a => exact absurd h not_false
  | fwd f => exact absurd h not_false

theorem quiet_advanceN {m : Machine α} (h : quiet m.state) (k : Nat) :
    (advanceN k m).2 = 0 ∧ (advanceN k m).1.src = m.src := by
  induction k generalizing m with
  | zero => exact ⟨rfl, rfl⟩
  | succ k ih =>
    obtain ⟨hp, hs, hq⟩ := quiet_advance1 h
    obtain ⟨ihp, ihs⟩ := ih hq
    refine ⟨?_, ?_⟩
    · simp only [advanceN, ihp, hp]
    · simp only [advanceN, ihs, hs]

theorem advance1_done {m : Machine α} (h : m.state = .done) : advance1 m = (.halt, m, 0) := by
  obtain ⟨st, src⟩ := m
  cases h
  rfl

theorem advanceN_done {m : Machine α} (h : m.state = .done) (k : Nat) :
    advanceN k m = (m, 0) := by
  induction k with
  | zero => rfl
  | succ k ih => simp only [advanceN, advance1_done h, ih]

theorem stepFwd_halt_done {f : FwdState} {src : List α} {m' : Machine α} {p : Nat}
    (h : stepFwd f src = (.halt, m', p)) : m'.state = .done := by
  simp only [stepFwd] at h
  repeat' split at h
  all_goals first
    | (injection h with h1 h2; injection h2 with h3 h4; subst h3; rfl)
    | (injection h with h1 h2; injection h1)

theorem emitBuf_halt_done {b src : List α} {m' : Machine α} {p q : Nat}
    (h : emitBuf b src p = (.halt, m', q)) : m'.state = .done := by
  cases b with
  | nil =>
    injection h with h1 h2
    injection h2 with h3 h4
    rw [← h3]
  | cons x rest => simp [emitBuf] at h

theorem advance1_halt_done {m m' : Machine α} {p : Nat}
    (h : advance1 m = (.halt, m', p)) : m'.state = .done := by
  obtain ⟨st, src⟩ := m
  cases st with
  | start a =>
    simp only [advance1] at h
    split at h
    · injection h with h1 h2
      injection h1
    · split at h
      · exact emitBuf_halt_done h
      · split at h
        · exact emitBuf_halt_done h
        · exact stepFwd_halt_done h
  | buffered b => exact emitBuf_halt_done h
  | fwd f => exact stepFwd_halt_done h
  | done =>
    injection h with h1 h2
    injection h2 with h3 h4
    rw [← h3]

/-- C3: constructing `islice_extended(source, *args)` — for every parameter
combination, valid or not — executes none of the generator body: the machine
starts in the inert `.start` state and the source is untouched (zero pulls
before the first advance). -/
theorem construction_touches_source_never (src : List α) (a : Args) :
    (mkMachine src a).src = src ∧ (mkMachine src a).state = .start a :=
  ⟨rfl, rfl⟩

theorem advance1_zero_step (src : List α) (a : Args) (h : a.rawStep = some 0) :
    advance1 (mkMachine src a) = (.err, ⟨.done, src⟩, 0) := by
  simp [advance1, mkMachine, sanStep, h]

/-- C2: with a zero step, construction is silent and pull-free, and the
first advance — and only an advance — raises the `ValueError`, still without
pulling the source. -/
theorem zero_step_deferred_to_first_advance (src : List α) (a : Args)
    (h : a.rawStep = some 0) :
    (mkMachine src a).src = src ∧ (mkMachine src a).state = .start a ∧
    advance1 (mkMachine src a) = (.err, ⟨.done, src⟩, 0) :=
  ⟨rfl, rfl, advance1_zero_step src a h⟩

theorem zero_step_deferred_to_first_advance_w :
    (args3 0 3 0).rawStep = some 0 ∧
    advance1 (mkMachine [10, 20, 30] (args3 0 3 0)) = (.err, ⟨.done, [10, 20, 30]⟩, 0) :=
  ⟨rfl, (zero_step_deferred_to_first_advance [10, 20, 30] (args3 0 3 0) rfl).2.2⟩

/-- C10: after the zero-step error was raised on the first advance, every
further advance signals `StopIteration` — the error is never raised again —
and the source is never pulled. -/
theorem zero_step_error_raised_once (src : List α) (a : Args)
    (h : a.rawStep = some 0) :
    (advance1 ((advance1 (mkMachine src a)).2.1)).1 = OutSig.halt ∧
    ∀ k, advanceN k ((advance1 (mkMachine src a)).2.1) = ((advance1 (mkMachine src a)).2.1, 0) := by
  have h1 : advance1 (mkMachine src a) = (.err, ⟨.done, src⟩, 0) :=
    advance1_zero_step src a h
  rw [h1]
  exact ⟨by rfl, advanceN_done rfl⟩

theorem zero_step_error_raised_once_w :
    (args3 0 3 0).rawStep = some 0 ∧
    ((advance1 ((advance1 (mkMachine [(5 : Nat), 6] (args3 0 3 0))).2.1)).1 = OutSig.halt ∧
      ∀ k, advanceN k ((advance1 (mkMachine [(5 : Nat), 6] (args3 0 3 0))).2.1) =
        ((advance1 (mkMachine [(5 : Nat), 6] (args3 0 3 0))).2.1, 0)) :=
  ⟨rfl, zero_step_error_raised_once [5, 6] (args3 0 3 0) rfl⟩

/-- C8: whenever an advance signals end-of-sequence, the machine is in the
terminal state, and every subsequent advance signals end-of-sequence again
with zero further source pulls — exhaustion is sticky. -/
theorem exhaustion_is_sticky {m m' : Machine α} {p : Nat}
    (h : advance1 m = (.halt, m', p)) :
    advance1 m' = (.halt, m', 0) ∧ ∀ k, advanceN k m' = (m', 0) := by
  have hd : m'.state = .done := advance1_halt_done h
  exact ⟨advance1_done hd, advanceN_done hd⟩

theorem exhaustion_is_sticky_w :
    advance1 (Machine.mk (MState.buffered []) [(7 : Nat)]) =
      (.halt, Machine.mk MState.done [(7 : Nat)], 0) ∧
    (advance1 (Machine.mk MState.done [(7 : Nat)]) =
        (.halt, Machine.mk MState.done [(7 : Nat)], 0) ∧
      ∀ k, advanceN k (Machine.mk MState.done [(7 : Nat)]) =
        (Machine.mk MState.done [(7 : Nat)], 0)) :=
  ⟨rfl, exhaustion_is_sticky (m := Machine.mk (MState.buffered []) [(7 : Nat)]) rfl⟩

/-- C5: when the sanitized start is negative, or a stop is given and its
sanitized value is negative (and the step is nonzero), the first advance
drains the whole source — `n` successful pulls plus the exhaustion probe,
`n + 1` attempts — and no later advance ever pulls again. -/
theorem negative_index_strategy_full_drain (src : List α) (a : Args)
    (h0 : sanStep a ≠ 0) (h1 : sanStart a < 0 ∨ hasNegStop a = true) :
    (advance1 (mkMachine src a)).2.2 = src.length + 1 ∧
    (advance1 (mkMachine src a)).2.1.src = [] ∧
    ∀ k, (advanceN k ((advance1 (mkMachine src a)).2.1)).2 = 0 := by
  have hadv : advance1 (mkMachine src a) = emitBuf (listSlice src a) [] (src.length + 1) := by
    simp only [advance1, mkMachine]
    rw [if_neg h0, if_pos h1]
  rw [hadv]
  exact ⟨emitBuf_pulls _ _ _, by rw [emitBuf_src],
    fun k => (quiet_advanceN (emitBuf_quiet _ _ _) k).1⟩

theorem negative_index_strategy_full_drain_w :
    (sanStep (args3 (-1) 10 1) ≠ 0 ∧
      (sanStart (args3 (-1) 10 1) < 0 ∨ hasNegStop (args3 (-1) 10 1) = true)) ∧
    ((advance1 (mkMachine (List.range 10) (args3 (-1) 10 1))).2.2 = 11 ∧
      (advance1 (mkMachine (List.range 10) (args3 (-1) 10 1))).2.1.src = [] ∧
      ∀ k, (advanceN k ((advance1 (mkMachine (List.range 10) (args3 (-1) 10 1))).2.1)).2 = 0) :=
  ⟨⟨by decide, by decide⟩,
    negative_index_strategy_full_drain (List.range 10) (args3 (-1) 10 1) (by decide) (by decide)⟩

/-- C6: in the negative-step strategy, with a source holding at least
`start + 1` elements, the first advance pulls exactly `start + 1` elements
and no later advance ever pulls again. -/
theorem negative_step_strategy_bounded_pulls (src : List α) (a : Args) (st s : Int)
    (hstep : a.rawStep = some st) (hst : st < 0)
    (hstart : a.rawStart = some s) (hs : 0 ≤ s)
    (hstop : hasNegStop a = false)
    (hlen : s + 1 ≤ (src.length : Int)) :
    (advance1 (mkMachine src a)).2.2 = s.toNat + 1 ∧
    ∀ k, (advanceN k ((advance1 (mkMachine src a)).2.1)).2 = 0 := by
  have hsan : sanStep a = st := by simp [sanStep, hstep]
  have hsanStart : sanStart a = s := by simp [sanStart, hstart]
  have hk : (sanStart a + 1).toNat = s.toNat + 1 := by rw [hsanStart]; omega
  have hle : ¬ (src.length < (sanStart a + 1).toNat) := by rw [hk]; omega
  have hadv : advance1 (mkMachine src a) =
      emitBuf (listSlice (src.take ((sanStart a + 1).toNat)) a)
        (src.drop ((sanStart a + 1).toNat)) ((sanStart a + 1).toNat) := by
    simp only [advance1, mkMachine]
    rw [if_neg (hsan ▸ (by omega : st ≠ 0)),
      if_neg (by rw [hsanStart, hstop]; simp; omega),
      if_pos (hsan ▸ hst), if_neg hle]
  rw [hadv]
  exact ⟨by rw [emitBuf_pulls, hk], fun k => (quiet_advanceN (emitBuf_quiet _ _ _) k).1⟩

theorem negative_step_strategy_bounded_pulls_w :
    ((args3 3 1 (-1)).rawStep = some (-1) ∧ (-1 : Int) < 0 ∧
      (args3 3 1 (-1)).rawStart = some 3 ∧ (0 : Int) ≤ 3 ∧
      hasNegStop (args3 3 1 (-1)) = false ∧
      (3 : Int) + 1 ≤ ((List.range 10).length : Int)) ∧
    ((advance1 (mkMachine (List.range 10) (args3 3 1 (-1)))).2.2 = 4 ∧
      ∀ k, (advanceN k ((advance1 (mkMachine (List.range 10) (args3 3 1 (-1)))).2.1)).2 = 0) :=
  ⟨⟨rfl, by decide, rfl, by decide, rfl, by decide⟩,
    negative_step_strategy_bounded_pulls (List.range 10) (args3 3 1 (-1)) (-1) 3
      rfl (by decide) rfl (by decide) rfl (by decide)⟩

theorem sliceIdx_length_le (n : Nat) (a : Args) : (sliceIdx n a).length ≤ n := by
  simp only [sliceIdx]
  split
  · exact le_trans (List.length_filter_le _ _) (le_of_eq (List.length_range n))
  · rw [List.length_reverse]
    exact le_trans (List.length_filter_le _ _) (le_of_eq (List.length_range n))

theorem listSlice_length_le (src : List α) (a : Args) :
    (listSlice src a).length ≤ src.length :=
  le_trans (List.length_filterMap_le _ _) (sliceIdx_length_le src.length a)

/-- Draining the deque-streaming loop: with enough fuel it yields exactly
the buffer, pulls nothing, and finishes in the terminal state. -/
theorem runFrom_buffered (fuel : Nat) (b src : List α) (hb : b.length < fuel) :
    runFrom fuel (Machine.mk (MState.buffered b) src) = (b, 0, ⟨.done, src⟩) := by
  induction fuel generalizing b with
  | zero => omega
  | succ fuel ih =>
    cases b with
    | nil => rfl
    | cons x rest =>
      have hr : rest.length < fuel := by
        simp only [List.length_cons] at hb
        omega
      have : advance1 (Machine.mk (MState.buffered (x :: rest)) src) =
          (.yld x, ⟨.buffered rest, src⟩, 0) := rfl
      simp only [runFrom, this, ih rest hr, Nat.zero_add]

/-- A first advance that enters the deque-streaming loop determines the
whole run: the yields are the buffer, the pulls are the buffering phase's. -/
theorem runFrom_emit (m0 : Machine α) (b s : List α) (p fuel : Nat)
    (h : advance1 m0 = emitBuf b s p) (hb : b.length < fuel) :
    runFrom (fuel + 1) m0 = (b, p, ⟨.done, s⟩) := by
  cases b with
  | nil =>
    simp only [runFrom, h, emitBuf]
  | cons x rest =>
    have hr : rest.length < fuel := by
      simp only [List.length_cons] at hb
      omega
    simp only [runFrom, h, emitBuf, runFrom_buffered fuel rest s hr, Nat.add_zero]

/-- C4 amended: in the negative-step strategy with a source shorter than
`start + 1`, the produced result is Python's clamped slice of the whole
(shorter) source — `list(S)[start:stop:step]`, which need not be empty —
and the source is still drained to exhaustion (`n + 1` pull attempts,
nothing of it left). -/
theorem short_source_negative_step_clamped_slice (src : List α) (a : Args) (st s : Int)
    (hstep : a.rawStep = some st) (hst : st < 0)
    (hstart : a.rawStart = some s) (hs : 0 ≤ s)
    (hstop : hasNegStop a = false)
    (hshort : (src.length : Int) ≤ s) :
    (runFrom (src.length + 2) (mkMachine src a)).1 = listSlice src a ∧
    (advance1 (mkMachine src a)).2.2 = src.length + 1 ∧
    (advance1 (mkMachine src a)).2.1.src = [] := by
  have hsan : sanStep a = st := by simp [sanStep, hstep]
  have hsanStart : sanStart a = s := by simp [sanStart, hstart]
  have hk : src.length ≤ (sanStart a + 1).toNat := by rw [hsanStart]; omega
  have htake : src.take ((sanStart a + 1).toNat) = src := List.take_of_length_le hk
  have hdrop : src.drop ((sanStart a + 1).toNat) = [] := List.drop_eq_nil_of_le hk
  have hlt : src.length < (sanStart a + 1).toNat := by rw [hsanStart]; omega
  have hadv : advance1 (mkMachine src a) =
      emitBuf (listSlice src a) [] (src.length + 1) := by
    simp only [advance1, mkMachine]
    rw [if_neg (hsan ▸ (by omega : st ≠ 0)),
      if_neg (by rw [hsanStart, hstop]; simp; omega),
      if_pos (hsan ▸ hst), htake, hdrop, if_pos hlt]
  refine ⟨?_, ?_, ?_⟩
  · rw [runFrom_emit (mkMachine src a) (listSlice src a) [] (src.length + 1)
      (src.length + 1) hadv (Nat.lt_succ_of_le (listSlice_length_le src a))]
  · rw [hadv, emitBuf_pulls]
  · rw [hadv, emitBuf_src]

theorem short_source_negative_step_clamped_slice_w :
    ((⟨some 5, none, some (-1)⟩ : Args).rawStep = some (-1) ∧ (-1 : Int) < 0 ∧
      (⟨some 5, none, some (-1)⟩ : Args).rawStart = some 5 ∧ (0 : Int) ≤ 5 ∧
      hasNegStop ⟨some 5, none, some (-1)⟩ = false ∧
      (([0, 1, 2] : List Nat).length : Int) ≤ 5) ∧
    ((runFrom (([0, 1, 2] : List Nat).length + 2)
        (mkMachine [0, 1, 2] ⟨some 5, none, some (-1)⟩)).1 =
      listSlice [0, 1, 2] ⟨some 5, none, some (-1)⟩ ∧
      (advance1 (mkMachine [0, 1, 2] ⟨some 5, none, some (-1)⟩)).2.2 = 4 ∧
      (advance1 (mkMachine [0, 1, 2] ⟨some 5, none, some (-1)⟩)).2.1.src = []) :=
  ⟨⟨rfl, by decide, rfl, by decide, rfl, by decide⟩,
    short_source_negative_step_clamped_slice [0, 1, 2] ⟨some 5, none, some (-1)⟩ (-1) 5
      rfl (by decide) rfl (by decide) rfl (by decide)⟩

/-- C4 counterexample: negative-step strategy, source `[0, 1, 2]` (three
elements), `start = 5`, `stop` absent, `step = -1`: the source has fewer than
`start + 1` elements, yet the produced result is `[2, 1, 0]`, not the empty
slice — Python clamps the start to the last element. -/
theorem short_source_negative_step_nonempty_counterexample :
    (runFrom 5 (mkMachine [0, 1, 2] ⟨some 5, none, some (-1)⟩)).1 = [2, 1, 0] ∧
    (runFrom 5 (mkMachine [0, 1, 2] ⟨some 5, none, some (-1)⟩)).1 ≠ [] := by
  decide

/-- Relabelling the elements of the source: the machine is parametric in the
element values, so behaviour (branching, pull counts) depends only on the
source's length. -/
def mapState (g : α → β) : MState α → MState β
  | .start a => .start a
  | .buffered b => .buffered (b.map g)
  | .fwd f => .fwd f
  | .done => .done

def mapM (g : α → β) (m : Machine α) : Machine β :=
  ⟨mapState g m.state, m.src.map g⟩

def mapOut (g : α → β) : OutSig α → OutSig β
  | .yld x => .yld (g x)
  | .halt => .halt
  | .err => .err

theorem listSlice_map (g : α → β) (src : List α) (a : Args) :
    listSlice (src.map g) a = (listSlice src a).map g := by
  unfold listSlice
  rw [List.length_map, List.map_filterMap]
  exact List.filterMap_congr (fun i _ => List.get?_map g src i)

theorem emitBuf_map (g : α → β) (b s : List α) (p : Nat) :
    emitBuf (b.map g) (s.map g) p =
      (mapOut g (emitBuf b s p).1, mapM g (emitBuf b s p).2.1, (emitBuf b s p).2.2) := by
  cases b <;> rfl

theorem stepFwd_map (g : α → β) (f : FwdState) (src : List α) :
    stepFwd f (src.map g) =
      (mapOut g (stepFwd f src).1, mapM g (stepFwd f src).2.1, (stepFwd f src).2.2) := by
  simp only [stepFwd, List.length_map]
  split
  · rfl
  · split
    · rw [← List.map_drop]
      rfl
    · rw [← List.map_drop]
      rcases hd : src.drop (f.nxt - f.cnt) with _ | ⟨x, rest⟩ <;> rfl

theorem advance1_map (g : α → β) (m : Machine α) :
    advance1 (mapM g m) =
      (mapOut g (advance1 m).1, mapM g (advance1 m).2.1, (advance1 m).2.2) := by
  obtain ⟨st, src⟩ := m
  cases st with
  | start a =>
    show advance1 (Machine.mk (MState.start a) (src.map g)) = _
    simp only [advance1, List.length_map]
    split
    · rfl
    · split
      · rw [show ([] : List β) = ([] : List α).map g from rfl, listSlice_map,
          emitBuf_map]
      · split
        · rw [← List.map_take, ← List.map_drop, listSlice_map, emitBuf_map]
        · exact stepFwd_map g _ src
  | buffered b => exact emitBuf_map g b src 0
  | fwd f => exact stepFwd_map g f src
  | done => rfl

theorem runFrom_map (g : α → β) (fuel : Nat) (m : Machine α) :
    runFrom fuel (mapM g m) =
      ((runFrom fuel m).1.map g, (runFrom fuel m).2.1, mapM g (runFrom fuel m).2.2) := by
  induction fuel generalizing m with
  | zero => rfl
  | succ fuel ih =>
    rcases h : advance1 m with ⟨o, m', p⟩
    have hmap := advance1_map g m
    rw [h] at hmap
    cases o with
    | yld x => simp only [runFrom, hmap, mapOut, h, ih m', List.map_cons]
    | halt => simp only [runFrom, hmap, mapOut, h, List.map_nil]
    | err => simp only [runFrom, hmap, mapOut, h, List.map_nil]

/-- C7: forward strategy on a length-10 source: `(4, 7, 1)` pulls exactly 5
on the first advance and 7 over full consumption; `(6, 4, 1)` yields nothing
yet pulls exactly 6 — the skip phase still runs, exactly as
`itertools.islice` behaves. -/
theorem forward_strategy_pull_counts (src : List α) (h : src.length = 10) :
    (advance1 (mkMachine src (args3 4 7 1))).2.2 = 5 ∧
    (runFrom 12 (mkMachine src (args3 4 7 1))).2.1 = 7 ∧
    (runFrom 12 (mkMachine src (args3 6 4 1))).1 = [] ∧
    (runFrom 12 (mkMachine src (args3 6 4 1))).2.1 = 6 := by
  have hmap : ∀ a : Args,
      mapM (fun _ => ()) (mkMachine src a) = mkMachine (List.replicate 10 ()) a := by
    intro a
    show Machine.mk (MState.start a) (src.map fun _ => ()) = _
    rw [List.map_const', h]
    rfl
  refine ⟨?_, ?_, ?_, ?_⟩
  · have := congrArg (fun r => r.2.2) (advance1_map (fun _ => ()) (mkMachine src (args3 4 7 1)))
    simp only [hmap] at this
    rw [← this]
    decide
  · have := congrArg (fun r => r.2.1) (runFrom_map (fun _ => ()) 12 (mkMachine src (args3 4 7 1)))
    simp only [hmap] at this
    rw [← this]
    decide
  · have := congrArg (fun r => r.1) (runFrom_map (fun _ => ()) 12 (mkMachine src (args3 6 4 1)))
    simp only [hmap] at this
    have hnil : (runFrom 12 (mkMachine src (args3 6 4 1))).1.map (fun _ => ()) = [] := by
      rw [← this]
      decide
    exact List.map_eq_nil_iff.mp hnil
  · have := congrArg (fun r => r.2.1) (runFrom_map (fun _ => ()) 12 (mkMachine src (args3 6 4 1)))
    simp only [hmap] at this
    rw [← this]
    decide

theorem forward_strategy_pull_counts_w :
    (List.range 10).length = 10 ∧
    ((advance1 (mkMachine (List.range 10) (args3 4 7 1))).2.2 = 5 ∧
      (runFrom 12 (mkMachine (List.range 10) (args3 4 7 1))).2.1 = 7 ∧
      (runFrom 12 (mkMachine (List.range 10) (args3 6 4 1))).1 = [] ∧
      (runFrom 12 (mkMachine (List.range 10) (args3 6 4 1))).2.1 = 6) :=
  ⟨by decide, forward_strategy_pull_counts (List.range 10) (by decide)⟩

/-- Reference semantics of forward streaming (`itertools.islice` with
nonnegative parameters), phrased element-by-element: scan the source,
`s` elements still to skip before the next emission, `t?` source positions
left inside the window (`none`: unbounded), stride `k`. -/
def strided : List α → Nat → Option Nat → Nat → List α
  | _, _, some 0, _ => []
  | [], _, _, _ => []
  | a :: rest, 0, t?, k => a :: strided rest (k - 1) (t?.map (· - 1)) k
  | _ :: rest, s + 1, t?, k => strided rest s (t?.map (· - 1)) k

theorem strided_some_zero (src : List α) (s k : Nat) : strided src s (some 0) k = [] := by
  cases src <;> cases s <;> rfl

theorem strided_nil_src (s : Nat) (t? : Option Nat) (k : Nat) :
    strided ([] : List α) s t? k = [] := by
  rcases t? with _ | t
  · rfl
  · cases t <;> rfl

theorem strided_cons_zero (a : α) (rest : List α) (t? : Option Nat) (k : Nat)
    (h : t? ≠ some 0) :
    strided (a :: rest) 0 t? k = a :: strided rest (k - 1) (t?.map (· - 1)) k := by
  rcases t? with _ | t
  · rfl
  · cases t with
    | zero => exact absurd rfl h
    | succ t => rfl

theorem strided_cons_succ (a : α) (rest : List α) (s : Nat) (t? : Option Nat) (k : Nat)
    (h : t? ≠ some 0) :
    strided (a :: rest) (s + 1) t? k = strided rest s (t?.map (· - 1)) k := by
  rcases t? with _ | t
  · rfl
  · cases t with
    | zero => exact absurd rfl h
    | succ t => rfl

theorem strided_of_length_le (src : List α) (s : Nat) (t? : Option Nat) (k : Nat)
    (h : src.length ≤ s) : strided src s t? k = [] := by
  induction src generalizing s t? with
  | nil => exact strided_nil_src s t? k
  | cons a rest ih =>
    rcases t? with _ | t
    · obtain ⟨s', rfl⟩ : ∃ s', s = s' + 1 := by
        refine ⟨s - 1, ?_⟩
        simp only [List.length_cons] at h
        omega
      rw [strided_cons_succ a rest s' none k (by simp)]
      exact ih s' none (by simp only [List.length_cons] at h; omega)
    · cases t with
      | zero => exact strided_some_zero _ _ _
      | succ t =>
        obtain ⟨s', rfl⟩ : ∃ s', s = s' + 1 := by
          refine ⟨s - 1, ?_⟩
          simp only [List.length_cons] at h
          omega
        rw [strided_cons_succ a rest s' (some (t + 1)) k (by simp)]
        exact ih s' (some t) (by simp only [List.length_cons] at h; omega)

theorem strided_of_stop_le (src : List α) (s rt k : Nat) (h : rt ≤ s) :
    strided src s (some rt) k = [] := by
  induction src generalizing s rt with
  | nil => exact strided_nil_src s (some rt) k
  | cons a rest ih =>
    cases rt with
    | zero => exact strided_some_zero _ _ _
    | succ rt =>
      obtain ⟨s', rfl⟩ : ∃ s', s = s' + 1 := ⟨s - 1, by omega⟩
      rw [strided_cons_succ a rest s' (some (rt + 1)) k (by simp)]
      exact ih s' rt (by omega)

theorem strided_cons_drop (src : List α) :
    ∀ (s : Nat) (t? : Option Nat) (k : Nat) (x : α) (rest : List α),
      src.drop s = x :: rest → (∀ rt, t? = some rt → s < rt) →
      strided src s t? k = x :: strided rest (k - 1) (t?.map (· - (s + 1))) k := by
  induction src with
  | nil =>
    intro s t? k x rest hd ht
    simp at hd
  | cons a as ih =>
    intro s t? k x rest hd ht
    have hne : t? ≠ some 0 := by
      intro h0
      exact absurd (ht 0 h0) (by omega)
    cases s with
    | zero =>
      rw [List.drop_zero] at hd
      injection hd with h1 h2
      subst h1
      subst h2
      rw [strided_cons_zero a as t? k hne]
    | succ s' =>
      rw [List.drop_succ_cons] at hd
      rw [strided_cons_succ a as s' t? k hne]
      have ht' : ∀ rt, t?.map (· - 1) = some rt → s' < rt := by
        intro rt hrt
        rcases t? with _ | t
        · simp at hrt
        · simp only [Option.map_some', Option.some.injEq] at hrt
          have h5 := ht t rfl
          omega
      rw [ih s' (t?.map (· - 1)) k x rest hd ht']
      rcases t? with _ | t
      · rfl
      · have harith : t - 1 - (s' + 1) = t - (s' + 1 + 1) := by omega
        simp only [Option.map_some', harith]

/-- Running the machine from a suspended `itertools.islice` state yields the
strided tail of the remaining source. -/
theorem runFrom_fwd (fuel : Nat) (f : FwdState) (src : List α)
    (hc : f.cnt ≤ f.nxt) (hk : 1 ≤ f.stepN) (hfuel : src.length < fuel) :
    (runFrom fuel (Machine.mk (MState.fwd f) src)).1 =
      strided src (f.nxt - f.cnt) (f.stopN.map (· - f.cnt)) f.stepN := by
  induction fuel generalizing f src with
  | zero => omega
  | succ fuel ih =>
    have hstep : advance1 (Machine.mk (MState.fwd f) src) = stepFwd f src := rfl
    by_cases h1 : src.length < f.nxt - f.cnt
    · have : stepFwd f src = (.halt, ⟨.done, []⟩, src.length + 1) := by
        simp only [stepFwd]
        rw [if_pos h1]
      simp only [runFrom, hstep, this]
      exact (strided_of_length_le src _ _ _ (by omega)).symm
    · rcases hstop : f.stopN with _ | t
      · -- unbounded: skip, then pull or exhaust
        rcases hd : src.drop (f.nxt - f.cnt) with _ | ⟨x, rest⟩
        · have : stepFwd f src = (.halt, ⟨.done, []⟩, (f.nxt - f.cnt) + 1) := by
            simp only [stepFwd]
            rw [if_neg h1, hstop]
            simp only [hd]
            rfl
          simp only [runFrom, hstep, this, hstop, Option.map_none']
          refine (strided_of_length_le src _ _ _ ?_).symm
          have := List.drop_eq_nil_iff.mp hd
          omega
        · have hadv2 : stepFwd f src =
              (.yld x, ⟨.fwd ⟨f.nxt + f.stepN, f.cnt + (f.nxt - f.cnt) + 1, none, f.stepN⟩,
                rest⟩, (f.nxt - f.cnt) + 1) := by
            simp only [stepFwd]
            rw [if_neg h1, hstop]
            simp only [hd]
            rfl
          have hlen : src.length = (f.nxt - f.cnt) + rest.length + 1 := by
            have h2 := congrArg List.length hd
            simp only [List.length_drop, List.length_cons] at h2
            omega
          simp only [runFrom, hstep, hadv2]
          rw [ih ⟨f.nxt + f.stepN, f.cnt + (f.nxt - f.cnt) + 1, none, f.stepN⟩ rest
            (by show f.cnt + (f.nxt - f.cnt) + 1 ≤ f.nxt + f.stepN; omega) hk (by omega)]
          dsimp only
          simp only [Option.map_none']
          rw [strided_cons_drop src (f.nxt - f.cnt) none f.stepN x rest hd
            (fun rt hrt => Option.noConfusion hrt)]
          simp only [Option.map_none']
          have hA : f.nxt + f.stepN - (f.cnt + (f.nxt - f.cnt) + 1) = f.stepN - 1 := by omega
          rw [hA]
      · by_cases h2 : t ≤ f.cnt + (f.nxt - f.cnt)
        · have hadv2 : stepFwd f src =
              (.halt, ⟨.done, src.drop (f.nxt - f.cnt)⟩, f.nxt - f.cnt) := by
            simp only [stepFwd]
            rw [if_neg h1, hstop]
            simp only [if_pos (decide_eq_true h2)]
          simp only [runFrom, hstep, hadv2, hstop, Option.map_some']
          exact (strided_of_stop_le src _ _ _ (by omega)).symm
        · rcases hd : src.drop (f.nxt - f.cnt) with _ | ⟨x, rest⟩
          · have hadv2 : stepFwd f src = (.halt, ⟨.done, []⟩, (f.nxt - f.cnt) + 1) := by
              simp only [stepFwd]
              rw [if_neg h1, hstop]
              rw [if_neg (show ¬(decide (t ≤ f.cnt + (f.nxt - f.cnt)) = true) from by
                simp only [decide_eq_true_eq]
                omega)]
              simp only [hd]
            simp only [runFrom, hstep, hadv2, hstop, Option.map_some']
            refine (strided_of_length_le src _ _ _ ?_).symm
            have := List.drop_eq_nil_iff.mp hd
            omega
          · have hadv2 : stepFwd f src =
                (.yld x, ⟨.fwd ⟨min (f.nxt + f.stepN) t, f.cnt + (f.nxt - f.cnt) + 1,
                  some t, f.stepN⟩, rest⟩, (f.nxt - f.cnt) + 1) := by
              simp only [stepFwd]
              rw [if_neg h1, hstop]
              rw [if_neg (show ¬(decide (t ≤ f.cnt + (f.nxt - f.cnt)) = true) from by
                simp only [decide_eq_true_eq]
                omega)]
              simp only [hd]
            have hlen : src.length = (f.nxt - f.cnt) + rest.length + 1 := by
              have h3 := congrArg List.length hd
              simp only [List.length_drop, List.length_cons] at h3
              omega
            simp only [runFrom, hstep, hadv2]
            rw [ih ⟨min (f.nxt + f.stepN) t, f.cnt + (f.nxt - f.cnt) + 1, some t, f.stepN⟩ rest
              (by
                show f.cnt + (f.nxt - f.cnt) + 1 ≤ min (f.nxt + f.stepN) t
                exact Nat.le_min.mpr ⟨by omega, by omega⟩)
              hk (by omega)]
            dsimp only
            simp only [Option.map_some']
            rw [strided_cons_drop src (f.nxt - f.cnt) (some (t - f.cnt)) f.stepN x rest hd
              (by
                intro rt hrt
                injection hrt with h5
                omega)]
            simp only [Option.map_some']
            have hstopeq : t - f.cnt - (f.nxt - f.cnt + 1) = t - (f.cnt + (f.nxt - f.cnt) + 1) := by
              omega
            rw [hstopeq]
            by_cases h4 : f.nxt + f.stepN ≤ t
            · rw [min_eq_left h4]
              have hA : f.nxt + f.stepN - (f.cnt + (f.nxt - f.cnt) + 1) = f.stepN - 1 := by omega
              rw [hA]
            · rw [min_eq_right (by omega)]
              rw [strided_of_stop_le rest (t - (f.cnt + (f.nxt - f.cnt) + 1))
                  (t - (f.cnt + (f.nxt - f.cnt) + 1)) f.stepN (le_refl _),
                strided_of_stop_le rest (f.stepN - 1) (t - (f.cnt + (f.nxt - f.cnt) + 1)) f.stepN
                  (by omega)]

/-- Index-set view of forward streaming: position `i` is emitted iff it is
at least `s`, inside the window, and on the stride grid. -/
def posCond (s : Nat) (t? : Option Nat) (k : Nat) (i : Nat) : Bool :=
  (match t? with | some t => decide (i < t) | none => true) &&
    (decide (s ≤ i) && decide ((i - s) % k = 0))

def posSlice (src : List α) (s : Nat) (t? : Option Nat) (k : Nat) : List α :=
  ((List.range src.length).filter (posCond s t? k)).filterMap src.get?

theorem succ_mod_zero_iff (i k : Nat) (hk : 1 ≤ k) :
    (i + 1) % k = 0 ↔ (k - 1 ≤ i ∧ (i - (k - 1)) % k = 0) := by
  constructor
  · intro h
    have hdvd : k ∣ i + 1 := Nat.dvd_of_mod_eq_zero h
    have hge : k ≤ i + 1 := Nat.le_of_dvd (by omega) hdvd
    refine ⟨by omega, ?_⟩
    have h2 : i - (k - 1) = i + 1 - k := by omega
    rw [h2]
    exact Nat.mod_eq_zero_of_dvd (Nat.dvd_sub' hdvd dvd_rfl)
  · intro h
    obtain ⟨hle, hmod⟩ := h
    have hdvd : k ∣ i - (k - 1) := Nat.dvd_of_mod_eq_zero hmod
    have h2 : i + 1 = (i - (k - 1)) + k := by omega
    rw [h2]
    exact Nat.mod_eq_zero_of_dvd (Nat.dvd_add hdvd dvd_rfl)

theorem decide_succ_mod (i k : Nat) (hk : 1 ≤ k) :
    decide ((i + 1) % k = 0) = (decide (k - 1 ≤ i) && decide ((i - (k - 1)) % k = 0)) := by
  rw [← Bool.decide_and]
  exact decide_eq_decide.mpr (succ_mod_zero_iff i k hk)

theorem posCond_succ_succ (s : Nat) (t? : Option Nat) (k i : Nat) :
    posCond (s + 1) t? k (i + 1) = posCond s (t?.map (· - 1)) k i := by
  unfold posCond
  congr 1
  · rcases t? with _ | t
    · rfl
    · simp only [Option.map_some']
      exact decide_eq_decide.mpr (by omega)
  · congr 1
    · exact decide_eq_decide.mpr (by omega)
    · have h2 : i + 1 - (s + 1) = i - s := by omega
      rw [h2]

theorem posCond_zero_succ (t? : Option Nat) (k i : Nat) (hk : 1 ≤ k) :
    posCond 0 t? k (i + 1) = posCond (k - 1) (t?.map (· - 1)) k i := by
  unfold posCond
  congr 1
  · rcases t? with _ | t
    · rfl
    · simp only [Option.map_some']
      exact decide_eq_decide.mpr (by omega)
  · rw [Nat.sub_zero, decide_eq_true (by omega : (0 : Nat) ≤ i + 1), Bool.true_and]
    exact decide_succ_mod i k hk

theorem posCond_zero_head (t? : Option Nat) (k : Nat) (h : t? ≠ some 0) :
    posCond 0 t? k 0 = true := by
  unfold posCond
  rcases t? with _ | t
  · simp
  · cases t with
    | zero => exact absurd rfl h
    | succ t => simp

theorem posCond_succ_head (s : Nat) (t? : Option Nat) (k : Nat) :
    posCond (s + 1) t? k 0 = false := by
  unfold posCond
  simp

theorem strided_eq_posSlice (src : List α) :
    ∀ (s : Nat) (t? : Option Nat) (k : Nat), 1 ≤ k →
      strided src s t? k = posSlice src s t? k := by
  induction src with
  | nil =>
    intro s t? k hk
    rw [strided_nil_src]
    rfl
  | cons a rest ih =>
    intro s t? k hk
    by_cases h0 : t? = some 0
    · subst h0
      rw [strided_some_zero]
      unfold posSlice
      have hnil : (List.range (a :: rest).length).filter (posCond s (some 0) k) = [] := by
        rw [List.filter_eq_nil]
        intro i _
        simp [posCond]
      rw [hnil]
      rfl
    · unfold posSlice
      rw [List.length_cons, List.range_succ_eq_map, List.filter_cons]
      cases s with
      | zero =>
        rw [if_pos (posCond_zero_head t? k h0)]
        rw [List.filter_map, List.filterMap_cons, List.filterMap_map]
        simp only [List.get?_cons_zero]
        rw [strided_cons_zero a rest t? k h0, ih (k - 1) (t?.map (· - 1)) k hk]
        unfold posSlice
        congr 1
        rw [List.filter_congr (fun i _ => (posCond_zero_succ t? k i hk).symm)]
        exact (List.filterMap_congr (fun i _ => List.get?_cons_succ)).symm
      | succ s' =>
        rw [if_neg (by rw [posCond_succ_head]; exact Bool.false_ne_true)]
        rw [List.filter_map, List.filterMap_map]
        rw [strided_cons_succ a rest s' t? k h0, ih s' (t?.map (· - 1)) k hk]
        unfold posSlice
        rw [List.filter_congr (fun i _ => (posCond_succ_succ s' t? k i).symm)]
        exact (List.filterMap_congr (fun i _ => List.get?_cons_succ)).symm

theorem bool_eq_of_iff {a b : Bool} (h : a = true ↔ b = true) : a = b := by
  cases a <;> cases b <;> simp_all

theorem int_mod_toNat (i s0 k0 : Nat) (hs : s0 ≤ i) :
    (((i : Int) - (s0 : Int)) % (k0 : Int) = 0) ↔ ((i - s0) % k0 = 0) := by
  rw [show ((i : Int) - (s0 : Int)) = ((i - s0 : Nat) : Int) from by rw [Nat.cast_sub hs],
    ← Int.natCast_mod]
  exact Int.natCast_eq_zero

theorem pos_filter_cond_eq (n i s0 k0 : Nat) (t0? : Option Nat) (hi : i < n) :
    (decide ((if (n : Int) ≤ (s0 : Int) then (n : Int) else (s0 : Int)) ≤ (i : Int)) &&
      decide ((i : Int) < (match t0? with
        | none => (n : Int)
        | some t0 => if (n : Int) ≤ (t0 : Int) then (n : Int) else (t0 : Int))) &&
      decide (((i : Int) -
        (if (n : Int) ≤ (s0 : Int) then (n : Int) else (s0 : Int))) % (k0 : Int) = 0)) =
    posCond s0 t0? k0 i := by
  apply bool_eq_of_iff
  by_cases hsn : n ≤ s0
  · rw [if_pos (by exact_mod_cast hsn)]
    constructor
    · intro h
      simp only [Bool.and_eq_true, decide_eq_true_eq] at h
      have h1 := h.1.1
      omega
    · intro h
      simp only [posCond, Bool.and_eq_true, decide_eq_true_eq] at h
      have h2 := h.2.1
      omega
  · rw [if_neg (by exact_mod_cast hsn)]
    rcases t0? with _ | t0
    · simp only [posCond, Bool.and_eq_true, decide_eq_true_eq, Bool.true_and]
      constructor
      · rintro ⟨⟨h1, h2⟩, h3⟩
        have hs0i : s0 ≤ i := by exact_mod_cast h1
        exact ⟨hs0i, (int_mod_toNat i s0 k0 hs0i).mp h3⟩
      · rintro ⟨h1, h2⟩
        exact ⟨⟨by exact_mod_cast h1, by exact_mod_cast hi⟩, (int_mod_toNat i s0 k0 h1).mpr h2⟩
    · have hred : (match some t0 with
          | none => (n : Int)
          | some t0 => if (n : Int) ≤ (t0 : Int) then (n : Int) else (t0 : Int)) =
          if (n : Int) ≤ (t0 : Int) then (n : Int) else (t0 : Int) := rfl
      rw [hred]
      by_cases htn : n ≤ t0
      · rw [if_pos (by exact_mod_cast htn)]
        simp only [posCond, Bool.and_eq_true, decide_eq_true_eq]
        constructor
        · rintro ⟨⟨h1, h2⟩, h3⟩
          have hs0i : s0 ≤ i := by exact_mod_cast h1
          exact ⟨by omega, hs0i, (int_mod_toNat i s0 k0 hs0i).mp h3⟩
        · rintro ⟨h1, h2, h3⟩
          exact ⟨⟨by exact_mod_cast h2, by exact_mod_cast hi⟩,
            (int_mod_toNat i s0 k0 h2).mpr h3⟩
      · rw [if_neg (by exact_mod_cast htn)]
        simp only [posCond, Bool.and_eq_true, decide_eq_true_eq]
        constructor
        · rintro ⟨⟨h1, h2⟩, h3⟩
          have hs0i : s0 ≤ i := by exact_mod_cast h1
          exact ⟨by exact_mod_cast h2, hs0i, (int_mod_toNat i s0 k0 hs0i).mp h3⟩
        · rintro ⟨h1, h2, h3⟩
          exact ⟨⟨by exact_mod_cast h2, by exact_mod_cast h1⟩,
            (int_mod_toNat i s0 k0 h2).mpr h3⟩

theorem pyNormStart_nonneg_eq (n : Nat) (a : Args)
    (hpos : 0 < sanStep a) (hstart : 0 ≤ sanStart a) :
    pyNormStart (n : Int) a.rawStart (sanStep a) =
      if (n : Int) ≤ (((sanStart a).toNat : Nat) : Int) then (n : Int)
      else (((sanStart a).toNat : Nat) : Int) := by
  have htn : ((sanStart a).toNat : Int) = sanStart a := Int.toNat_of_nonneg hstart
  rw [htn]
  rcases hrs : a.rawStart with _ | sv
  · have h0 : sanStart a = 0 := by
      simp [sanStart, hrs, if_pos hpos]
    rw [h0]
    simp only [pyNormStart, if_pos hpos]
    split <;> omega
  · have h0 : sanStart a = sv := by simp [sanStart, hrs]
    rw [h0] at hstart ⊢
    simp only [pyNormStart]
    rw [if_neg (by omega : ¬ sv < 0)]
    repeat' split
    all_goals omega

theorem pyNormStop_nonneg_eq (n : Nat) (a : Args)
    (hpos : 0 < sanStep a) (hstop : hasNegStop a = false) :
    pyNormStop (n : Int) a.rawStop (sanStep a) =
      (match a.rawStop.map Int.toNat with
        | none => (n : Int)
        | some t0 => if (n : Int) ≤ (t0 : Int) then (n : Int) else (t0 : Int)) := by
  rcases hrt : a.rawStop with _ | tv
  · simp only [pyNormStop, Option.map_none', if_pos hpos]
  · have htv : 0 ≤ tv := by
      by_contra hneg
      simp [hasNegStop, hrt] at hstop
      omega
    have htn : ((tv.toNat : Nat) : Int) = tv := Int.toNat_of_nonneg htv
    simp only [pyNormStop, Option.map_some', htn]
    rw [if_neg (by omega : ¬ tv < 0)]
    repeat' split
    all_goals omega

theorem listSlice_eq_posSlice (src : List α) (a : Args)
    (hpos : 0 < sanStep a) (hstart : 0 ≤ sanStart a) (hstop : hasNegStop a = false) :
    listSlice src a =
      posSlice src (sanStart a).toNat (a.rawStop.map Int.toNat) (sanStep a).toNat := by
  simp only [listSlice, posSlice, sliceIdx]
  rw [if_pos hpos]
  congr 1
  apply List.filter_congr
  intro i hi
  have hi' : i < src.length := List.mem_range.mp hi
  have hkc : (((sanStep a).toNat : Nat) : Int) = sanStep a := Int.toNat_of_nonneg hpos.le
  rw [pyNormStart_nonneg_eq src.length a hpos hstart,
    pyNormStop_nonneg_eq src.length a hpos hstop, ← hkc]
  exact pos_filter_cond_eq src.length i (sanStart a).toNat (sanStep a).toNat
    (a.rawStop.map Int.toNat) hi'

theorem filter_range_shrink (p : Nat → Bool) (m n : Nat) (hmn : m ≤ n)
    (hp : ∀ i, p i = true → i < m) :
    (List.range n).filter p = (List.range m).filter p := by
  induction n with
  | zero =>
    have h0 : m = 0 := by omega
    subst h0
    rfl
  | succ n ihn =>
    rcases Nat.eq_or_lt_of_le hmn with h | h
    · subst h
      rfl
    · have hpn : p n = false := by
        cases hq : p n
        · rfl
        · exact absurd (hp n hq) (by omega)
      rw [List.range_succ, List.filter_append]
      have h1 : List.filter p [n] = [] := by
        simp [List.filter_cons, hpn]
      rw [h1, List.append_nil]
      exact ihn (by omega)

/-- Negative step, nonnegative start and stop: slicing the `start + 1`-element
prefix gives the same result as slicing the whole list — nothing past index
`start` can appear in such a slice, and Python's clamping agrees on both. -/
theorem listSlice_take (src : List α) (a : Args) (st sv : Int)
    (hstep : a.rawStep = some st) (hst : st < 0)
    (hstart : a.rawStart = some sv) (hs : 0 ≤ sv)
    (hstop : hasNegStop a = false) :
    listSlice (src.take ((sanStart a + 1).toNat)) a = listSlice src a := by
  have hsan : sanStep a = st := by simp [sanStep, hstep]
  have hsanStart : sanStart a = sv := by simp [sanStart, hstart]
  rw [hsanStart]
  by_cases hshort : (src.length : Int) ≤ sv
  · rw [List.take_of_length_le (by omega)]
  · have hm : (src.take ((sv + 1).toNat)).length = sv.toNat + 1 := by
      rw [List.length_take]
      omega
    have hstart_m : pyNormStart ((sv.toNat + 1 : Nat) : Int) a.rawStart st = sv := by
      rw [hstart]
      simp only [pyNormStart]
      rw [if_neg (by omega), if_neg (by omega)]
    have hstart_n : pyNormStart ((src.length : Nat) : Int) a.rawStart st = sv := by
      rw [hstart]
      simp only [pyNormStart]
      rw [if_neg (by omega), if_neg (by omega)]
    simp only [listSlice, sliceIdx, hsan, hm]
    simp only [if_neg (show ¬ st > 0 by omega), hstart_m, hstart_n]
    rcases hrt : a.rawStop with _ | tv
    · have hstop_m : pyNormStop ((sv.toNat + 1 : Nat) : Int) none st = -1 := by
        simp only [pyNormStop]
        rw [if_neg (by omega)]
      have hstop_n : pyNormStop ((src.length : Nat) : Int) none st = -1 := by
        simp only [pyNormStop]
        rw [if_neg (by omega)]
      simp only [hstop_m, hstop_n]
      rw [filter_range_shrink _ (sv.toNat + 1) src.length (by omega)
        (by
          intro i hpi
          simp only [Bool.and_eq_true, decide_eq_true_eq] at hpi
          have h2 := hpi.1.2
          omega)]
      apply List.filterMap_congr
      intro i hi
      rw [List.mem_reverse] at hi
      have hi2 := (List.mem_filter.mp hi).2
      simp only [Bool.and_eq_true, decide_eq_true_eq] at hi2
      exact List.get?_take (by omega)
    · have htv : 0 ≤ tv := by
        by_contra hneg
        simp [hasNegStop, hrt] at hstop
        omega
      by_cases hts : tv ≤ sv
      · have hstop_m : pyNormStop ((sv.toNat + 1 : Nat) : Int) (some tv) st = tv := by
          simp only [pyNormStop]
          rw [if_neg (by omega), if_neg (by omega)]
        have hstop_n : pyNormStop ((src.length : Nat) : Int) (some tv) st = tv := by
          simp only [pyNormStop]
          rw [if_neg (by omega), if_neg (by omega)]
        simp only [hstop_m, hstop_n]
        rw [filter_range_shrink _ (sv.toNat + 1) src.length (by omega)
          (by
            intro i hpi
            simp only [Bool.and_eq_true, decide_eq_true_eq] at hpi
            have h2 := hpi.1.2
            omega)]
        apply List.filterMap_congr
        intro i hi
        rw [List.mem_reverse] at hi
        have hi2 := (List.mem_filter.mp hi).2
        simp only [Bool.and_eq_true, decide_eq_true_eq] at hi2
        exact List.get?_take (by omega)
      · -- start < stop with negative step: both sides are the empty slice
        have hstop_m : pyNormStop ((sv.toNat + 1 : Nat) : Int) (some tv) st =
            ((sv.toNat + 1 : Nat) : Int) - 1 := by
          simp only [pyNormStop]
          rw [if_neg (by omega), if_pos (by omega), if_neg (show ¬ st > 0 by omega)]
        have hstop_n_ge : sv ≤ pyNormStop ((src.length : Nat) : Int) (some tv) st := by
          simp only [pyNormStop]
          rw [if_neg (by omega)]
          by_cases htn : tv ≥ ((src.length : Nat) : Int)
          · rw [if_pos htn, if_neg (show ¬ st > 0 by omega)]
            omega
          · rw [if_neg htn]
            omega
        have hnil_m : (List.range (sv.toNat + 1)).filter
            (fun (i : Nat) =>
              decide (pyNormStop ((sv.toNat + 1 : Nat) : Int) (some tv) st < (i : Int)) &&
              decide ((i : Int) ≤ sv) && decide ((sv - (i : Int)) % (-st) = 0)) = [] := by
          rw [List.filter_eq_nil]
          intro i _
          simp only [hstop_m, Bool.and_eq_true, decide_eq_true_eq, not_and]
          intro h1 h2
          omega
        have hnil_n : (List.range src.length).filter
            (fun (i : Nat) =>
              decide (pyNormStop ((src.length : Nat) : Int) (some tv) st < (i : Int)) &&
              decide ((i : Int) ≤ sv) && decide ((sv - (i : Int)) % (-st) = 0)) = [] := by
          rw [List.filter_eq_nil]
          intro i _
          simp only [Bool.and_eq_true, decide_eq_true_eq, not_and]
          intro h1 h2
          omega
        rw [hnil_m, hnil_n]
        rfl

theorem advance1_start_fwd (src : List α) (a : Args)
    (h0 : 0 < sanStep a) (h1 : ¬(sanStart a < 0 ∨ hasNegStop a = true)) :
    advance1 (mkMachine src a) =
      stepFwd ⟨(sanStart a).toNat, 0, a.rawStop.map Int.toNat, (sanStep a).toNat⟩ src := by
  simp only [advance1, mkMachine]
  rw [if_neg (by omega), if_neg h1, if_neg (by omega)]

theorem runFrom_start_eq_fwd (src : List α) (a : Args) (fuel : Nat)
    (h0 : 0 < sanStep a) (h1 : ¬(sanStart a < 0 ∨ hasNegStop a = true)) :
    runFrom (fuel + 1) (mkMachine src a) =
      runFrom (fuel + 1) (Machine.mk
        (MState.fwd ⟨(sanStart a).toNat, 0, a.rawStop.map Int.toNat, (sanStep a).toNat⟩) src) := by
  have h2 := advance1_start_fwd src a h0 h1
  have h3 : advance1 (Machine.mk
      (MState.fwd ⟨(sanStart a).toNat, 0, a.rawStop.map Int.toNat, (sanStep a).toNat⟩) src) =
      stepFwd ⟨(sanStart a).toNat, 0, a.rawStop.map Int.toNat, (sanStep a).toNat⟩ src := rfl
  simp only [runFrom, h2, h3]

/-- C1: for every finite source and every slice triple with nonzero step
(each parameter independently optional), fully consuming
`islice_extended(S, start, stop, step)` yields exactly
`list(S)[start:stop:step]`, element for element, in order. -/
theorem islice_extended_eq_materialized_slice (src : List α) (a : Args)
    (h : a.rawStep ≠ some 0) :
    (runFrom (src.length + 2) (mkMachine src a)).1 = listSlice src a := by
  have hstep : sanStep a ≠ 0 := by
    rcases hrs : a.rawStep with _ | v
    · simp [sanStep, hrs]
    · simp only [sanStep, hrs, Option.getD_some]
      intro hv
      exact h (by rw [hrs, hv])
  by_cases hb1 : sanStart a < 0 ∨ hasNegStop a = true
  · -- negative-index strategy: full drain, then Python-slice the buffer
    have hadv : advance1 (mkMachine src a) =
        emitBuf (listSlice src a) [] (src.length + 1) := by
      simp only [advance1, mkMachine]
      rw [if_neg hstep, if_pos hb1]
    have hrun := runFrom_emit (mkMachine src a) (listSlice src a) [] (src.length + 1)
      (src.length + 1) hadv (Nat.lt_succ_of_le (listSlice_length_le src a))
    rw [show src.length + 2 = (src.length + 1) + 1 from rfl, hrun]
  · push_neg at hb1
    obtain ⟨hstart, hstop⟩ := hb1
    have hstart' : 0 ≤ sanStart a := by omega
    have hstop' : hasNegStop a = false := by
      cases hq : hasNegStop a
      · rfl
      · exact absurd hq hstop
    by_cases hneg : sanStep a < 0
    · -- negative-step strategy: prefix drain, then Python-slice the buffer
      obtain ⟨st, hst⟩ : ∃ st, a.rawStep = some st := by
        rcases hrs : a.rawStep with _ | v
        · exfalso
          rw [show sanStep a = 1 from by simp [sanStep, hrs]] at hneg
          omega
        · exact ⟨v, rfl⟩
      have hstv : sanStep a = st := by simp [sanStep, hst]
      obtain ⟨sv, hsv⟩ : ∃ sv, a.rawStart = some sv := by
        rcases hrs : a.rawStart with _ | v
        · exfalso
          have hm1 : sanStart a = -1 := by
            simp [sanStart, hrs, if_neg (by omega : ¬ sanStep a > 0)]
          omega
        · exact ⟨v, rfl⟩
      have hsvv : sanStart a = sv := by simp [sanStart, hsv]
      have hsv0 : 0 ≤ sv := hsvv ▸ hstart'
      have hadv : advance1 (mkMachine src a) =
          emitBuf (listSlice (src.take ((sanStart a + 1).toNat)) a)
            (src.drop ((sanStart a + 1).toNat))
            (if src.length < (sanStart a + 1).toNat then src.length + 1
              else (sanStart a + 1).toNat) := by
        simp only [advance1, mkMachine]
        rw [if_neg hstep, if_neg (not_or.mpr ⟨by omega, by simp [hstop']⟩), if_pos hneg]
      rw [listSlice_take src a st sv hst (by omega) hsv hsv0 hstop'] at hadv
      have hrun := runFrom_emit (mkMachine src a) (listSlice src a) _ _
        (src.length + 1) hadv (Nat.lt_succ_of_le (listSlice_length_le src a))
      rw [show src.length + 2 = (src.length + 1) + 1 from rfl, hrun]
    · -- forward strategy: delegation to itertools.islice
      have hpos : 0 < sanStep a := by omega
      rw [show src.length + 2 = (src.length + 1) + 1 from rfl,
        runFrom_start_eq_fwd src a (src.length + 1) hpos
          (not_or.mpr ⟨by omega, by simp [hstop']⟩)]
      rw [runFrom_fwd ((src.length + 1) + 1)
        ⟨(sanStart a).toNat, 0, a.rawStop.map Int.toNat, (sanStep a).toNat⟩ src
        (Nat.zero_le _) (by show 1 ≤ (sanStep a).toNat; omega) (by omega)]
      simp only [Nat.sub_zero]
      have hmap0 : (a.rawStop.map Int.toNat).map (fun x => x) = a.rawStop.map Int.toNat := by
        rcases a.rawStop <;> rfl
      rw [hmap0,
        strided_eq_posSlice src (sanStart a).toNat (a.rawStop.map Int.toNat)
          (sanStep a).toNat (by omega)]
      exact (listSlice_eq_posSlice src a hpos hstart' hstop').symm

theorem islice_extended_eq_materialized_slice_w :
    (args3 5 0 (-1)).rawStep ≠ some 0 ∧
    (runFrom ((List.range 10).length + 2) (mkMachine (List.range 10) (args3 5 0 (-1)))).1 =
      listSlice (List.range 10) (args3 5 0 (-1)) :=
  ⟨by decide,
    islice_extended_eq_materialized_slice (List.range 10) (args3 5 0 (-1)) (by decide)⟩

/-- The machine is in the deque-streaming phase with buffer `b`, or finished
with nothing buffered. -/
def Inv (m : Machine α) (b : List α) : Prop :=
  m.state = MState.buffered b ∨ (m.state = MState.done ∧ b = [])

theorem emitBuf_inv (b s : List α) (p : Nat) : Inv (emitBuf b s p).2.1 (b.drop 1) := by
  cases b with
  | nil => exact Or.inr ⟨rfl, rfl⟩
  | cons x rest => exact Or.inl rfl

theorem inv_step {m : Machine α} {b : List α} (h : Inv m b) :
    Inv (advance1 m).2.1 (b.drop 1) := by
  obtain ⟨st, src⟩ := m
  rcases h with hb | ⟨hd, rfl⟩
  · cases hb
    exact emitBuf_inv b src 0
  · cases hd
    exact Or.inr ⟨rfl, rfl⟩

theorem inv_bufOf {m : Machine α} {b : List α} (h : Inv m b) : bufOf m.state = b := by
  rcases h with hb | ⟨hd, rfl⟩
  · rw [hb]
    rfl
  · rw [hd]
    rfl

theorem inv_advanceN {m : Machine α} {b : List α} (h : Inv m b) (j : Nat) :
    Inv (advanceN j m).1 (b.drop j) := by
  induction j generalizing m b with
  | zero => exact h
  | succ j ih =>
    have h2 : (advanceN (j + 1) m).1 = (advanceN j (advance1 m).2.1).1 := rfl
    rw [h2]
    have h3 := ih (inv_step h)
    rwa [List.drop_drop, show 1 + j = j + 1 from by omega] at h3

/-- Negative-step strategy, first advance: prefix drain, buffer the slice of
the whole list (the prefix slices identically), stream from the deque. -/
theorem advance1_negStep (src : List α) (a : Args)
    (hneg : sanStep a < 0) (hb1 : ¬(sanStart a < 0 ∨ hasNegStop a = true)) :
    advance1 (mkMachine src a) =
      emitBuf (listSlice src a) (src.drop ((sanStart a + 1).toNat))
        (if src.length < (sanStart a + 1).toNat then src.length + 1
          else (sanStart a + 1).toNat) := by
  push_neg at hb1
  obtain ⟨hstart, hstop⟩ := hb1
  have hstart' : 0 ≤ sanStart a := by omega
  have hstop' : hasNegStop a = false := by
    cases hq : hasNegStop a
    · rfl
    · exact absurd hq hstop
  obtain ⟨st, hst⟩ : ∃ st, a.rawStep = some st := by
    rcases hrs : a.rawStep with _ | v
    · exfalso
      rw [show sanStep a = 1 from by simp [sanStep, hrs]] at hneg
      omega
    · exact ⟨v, rfl⟩
  obtain ⟨sv, hsv⟩ : ∃ sv, a.rawStart = some sv := by
    rcases hrs : a.rawStart with _ | v
    · exfalso
      have hm1 : sanStart a = -1 := by
        simp [sanStart, hrs, if_neg (by omega : ¬ sanStep a > 0)]
      omega
    · exact ⟨v, rfl⟩
  have hstv : sanStep a = st := by simp [sanStep, hst]
  have hsvv : sanStart a = sv := by simp [sanStart, hsv]
  have hadv : advance1 (mkMachine src a) =
      emitBuf (listSlice (src.take ((sanStart a + 1).toNat)) a)
        (src.drop ((sanStart a + 1).toNat))
        (if src.length < (sanStart a + 1).toNat then src.length + 1
          else (sanStart a + 1).toNat) := by
    simp only [advance1, mkMachine]
    rw [if_neg (by omega), if_neg (not_or.mpr ⟨by omega, by simp [hstop']⟩), if_pos hneg]
  rw [listSlice_take src a st sv hst (by omega) hsv (hsvv ▸ hstart') hstop'] at hadv
  exact hadv

theorem stepFwd_shape (f : FwdState) (src : List α) :
    (∃ f', ((stepFwd f src).2.1).state = MState.fwd f') ∨
      ((stepFwd f src).2.1).state = MState.done := by
  simp only [stepFwd]
  repeat' split
  all_goals first
    | exact Or.inr rfl
    | exact Or.inl ⟨_, rfl⟩

theorem fwdShape_advance1 {m : Machine α}
    (h : (∃ f, m.state = MState.fwd f) ∨ m.state = MState.done) :
    (∃ f, ((advance1 m).2.1).state = MState.fwd f) ∨
      ((advance1 m).2.1).state = MState.done := by
  obtain ⟨st, src⟩ := m
  rcases h with ⟨f, hf⟩ | hd
  · cases hf
    exact stepFwd_shape f src
  · cases hd
    exact Or.inr rfl

theorem fwdShape_advanceN {m : Machine α}
    (h : (∃ f, m.state = MState.fwd f) ∨ m.state = MState.done) (j : Nat) :
    (∃ f, ((advanceN j m).1).state = MState.fwd f) ∨
      ((advanceN j m).1).state = MState.done := by
  induction j generalizing m with
  | zero => exact h
  | succ j ih =>
    have h2 : (advanceN (j + 1) m).1 = (advanceN j (advance1 m).2.1).1 := rfl
    rw [h2]
    exact ih (fwdShape_advance1 h)

theorem fwdShape_bufOf {m : Machine α}
    (h : (∃ f, m.state = MState.fwd f) ∨ m.state = MState.done) :
    bufOf m.state = [] := by
  rcases h with ⟨f, hf⟩ | hd
  · rw [hf]
    rfl
  · rw [hd]
    rfl

/-- C9 amended: the elements the operator itself retains behave as the claim
intends only for what it buffers: in the buffering strategies, after any
`j ≥ 1` advances the deque holds exactly the not-yet-yielded suffix of the
logical result (so every yielded element, and every element outside the
result window, is released no later than the call that made it unnecessary);
in the forward strategy the operator buffers nothing at all.  The claim's
"exactly the not-yet-yielded suffix" fails only because unconsumed source
elements also stay reachable through the operator's reference to the
source. -/
theorem buffered_suffix_release (src : List α) (a : Args) (hstep : sanStep a ≠ 0) :
    ((sanStart a < 0 ∨ hasNegStop a = true) ∨ sanStep a < 0 →
      ∀ j, 1 ≤ j →
        bufOf ((advanceN j (mkMachine src a)).1).state = (listSlice src a).drop j) ∧
    (0 ≤ sanStart a → hasNegStop a = false → 0 < sanStep a →
      ∀ j, bufOf ((advanceN j (mkMachine src a)).1).state = []) := by
  constructor
  · intro hstrat j hj
    have hinv1 : Inv ((advance1 (mkMachine src a)).2.1) ((listSlice src a).drop 1) := by
      by_cases hb1 : sanStart a < 0 ∨ hasNegStop a = true
      · have hadv : advance1 (mkMachine src a) =
            emitBuf (listSlice src a) [] (src.length + 1) := by
          simp only [advance1, mkMachine]
          rw [if_neg hstep, if_pos hb1]
        rw [hadv]
        exact emitBuf_inv _ _ _
      · rcases hstrat with h1 | h2
        · exact absurd h1 hb1
        · rw [advance1_negStep src a h2 hb1]
          exact emitBuf_inv _ _ _
    obtain ⟨j', rfl⟩ : ∃ j', j = j' + 1 := ⟨j - 1, by omega⟩
    have h2 : (advanceN (j' + 1) (mkMachine src a)).1 =
        (advanceN j' (advance1 (mkMachine src a)).2.1).1 := rfl
    rw [h2, inv_bufOf (inv_advanceN hinv1 j'), List.drop_drop,
      show 1 + j' = j' + 1 from by omega]
  · intro hs0 hsf hsp j
    cases j with
    | zero => rfl
    | succ j =>
      have h2 : (advanceN (j + 1) (mkMachine src a)).1 =
          (advanceN j (advance1 (mkMachine src a)).2.1).1 := rfl
      rw [h2]
      apply fwdShape_bufOf
      apply fwdShape_advanceN
      rw [advance1_start_fwd src a hsp (not_or.mpr ⟨by omega, by simp [hsf]⟩)]
      exact stepFwd_shape _ src

theorem buffered_suffix_release_w :
    sanStep (args3 3 1 (-1)) ≠ 0 ∧
    (((sanStart (args3 3 1 (-1)) < 0 ∨ hasNegStop (args3 3 1 (-1)) = true) ∨
        sanStep (args3 3 1 (-1)) < 0 →
      ∀ j, 1 ≤ j →
        bufOf ((advanceN j (mkMachine (List.range 10) (args3 3 1 (-1)))).1).state =
          (listSlice (List.range 10) (args3 3 1 (-1))).drop j) ∧
      (0 ≤ sanStart (args3 3 1 (-1)) → hasNegStop (args3 3 1 (-1)) = false →
        0 < sanStep (args3 3 1 (-1)) →
        ∀ j, bufOf ((advanceN j (mkMachine (List.range 10) (args3 3 1 (-1)))).1).state = [])) :=
  ⟨by decide, buffered_suffix_release (List.range 10) (args3 3 1 (-1)) (by decide)⟩

/-- C9 counterexample: source `[0, 1, 2]`, slice `(1, None, -1)` (logical
result `[1, 0]`).  After the first yield the not-yet-yielded suffix is `[0]`,
but the elements still reachable through the operator (its deque plus the
source elements it never consumed) are `[0, 2]`: element `2` was never needed
yet is still live, so the reachable set is not exactly the suffix. -/
theorem reachable_exact_suffix_counterexample :
    ¬ (∀ j, 1 ≤ j →
        bufOf ((advanceN j (mkMachine [0, 1, 2] ⟨some 1, none, some (-1)⟩)).1).state ++
          ((advanceN j (mkMachine [0, 1, 2] ⟨some 1, none, some (-1)⟩)).1).src =
        (listSlice [0, 1, 2] ⟨some 1, none, some (-1)⟩).drop j) := by
  intro h
  exact absurd (h 1 (by decide)) (by decide)

end Myitertools
